import Mathlib

/-!
Verification of the VanityOS-Api matching/lookup core.

The development shallowly embeds the matching and lookup subsystem of the
repository (files `food_mapper.py` and `ml_food_analyzer.py`):

* Python strings are modelled as `List Char` (`Str`), with the Python string
  operations used by the source (`lower`, `strip`, single-character
  `replace`, whitespace `split`, `' '.join`, the substring operator `in`)
  given explicit executable definitions.
* `normalize_food_name`, `match_food`, `analyze_food_image` from
  `ml_food_analyzer.py` and `get_ingredient_info` together with the two
  static tables from `food_mapper.py` are translated definition by
  definition.
* Image decoding and model inference (`predict_food`) are the external
  classifier collaborator; the orchestrator is therefore given the ranked
  candidate list it would produce.  File access in
  `load_acne_food_database` is modelled by an explicit map from paths to
  parsed contents.
-/

namespace VanityOS

/-- Python strings are modelled as lists of characters. -/
abbrev Str := List Char

/-- Embed a Lean string literal into the model. -/
def str (s : String) : Str := s.toList

/-- The ASCII whitespace characters recognised by Python `str.split()` and
`str.strip()` (space, tab, newline, carriage return, vertical tab, form
feed). -/
def pyIsSpace (c : Char) : Bool :=
  c == ' ' || c == '\t' || c == '\n' || c == '\r' || c == '\x0b' || c == '\x0c'

/-- Python `str.lower()`, character-wise ASCII case folding. -/
def pyLower (s : Str) : Str := s.map Char.toLower

/-- Python `str.strip()`: remove leading and trailing whitespace. -/
def pyStrip (s : Str) : Str :=
  ((s.dropWhile pyIsSpace).reverse.dropWhile pyIsSpace).reverse

/-- Python `str.replace(old, new)` for single-character arguments. -/
def replaceChar (old new : Char) (s : Str) : Str :=
  s.map fun c => if c = old then new else c

/-- Python `str.split()` with no arguments: split on runs of whitespace,
discarding empty pieces. -/
def pySplitWs (s : Str) : List Str :=
  (s.splitOnP pyIsSpace).filter (· ≠ [])

/-- Python `' '.join(ws)`. -/
def pyJoinSpace (ws : List Str) : Str := List.intercalate [' '] ws

/-- Python substring test `needle in hay`. -/
def pyIn (needle hay : Str) : Bool := decide (needle <:+: hay)

/-- Translation of `normalize_food_name` (ml_food_analyzer.py): lowercase,
replace underscores then hyphens by spaces, and rebuild the string as
`' '.join(s.split())`. -/
def normalize_food_name (name : Str) : Str :=
  pyJoinSpace (pySplitWs (replaceChar '-' ' ' (replaceChar '_' ' ' (pyLower name))))

/-- An entry of the external acne food database: a `food` name plus
arbitrary further fields that the matcher never inspects, modelled by a
type parameter. -/
structure DBEntry (α : Type) where
  food : Str
  attrs : α
deriving DecidableEq

variable {α β : Type}

/-- The first loop of `match_food`: return the first entry whose normalized
`food` field equals the normalized label. -/
def exactPass (normalized_label : Str) : List (DBEntry α) → Option (DBEntry α)
  | [] => none
  | entry :: rest =>
      if normalize_food_name entry.food = normalized_label then some entry
      else exactPass normalized_label rest

/-- The second loop of `match_food`: return the first entry whose normalized
`food` field contains, or is contained in, the normalized label. -/
def containsPass (normalized_label : Str) : List (DBEntry α) → Option (DBEntry α)
  | [] => none
  | entry :: rest =>
      if pyIn (normalize_food_name entry.food) normalized_label
          || pyIn normalized_label (normalize_food_name entry.food) then some entry
      else containsPass normalized_label rest

/-- Translation of `match_food` (ml_food_analyzer.py) with the database
supplied: exact pass first, contains pass only if the exact pass found
nothing, `none` if both fail. -/
def match_food (label : Str) (database : List (DBEntry α)) : Option (DBEntry α) :=
  let normalized_label := normalize_food_name label
  match exactPass normalized_label database with
  | some entry => some entry
  | none => containsPass normalized_label database

/-- The record returned by the orchestrator on success: a copy of the
matched entry together with the two fields `detected_label` and
`confidence` that `analyze_food_image` adds to the copy. -/
structure MatchedResult (α β : Type) where
  entry : DBEntry α
  detected_label : Str
  confidence : β
deriving DecidableEq

/-- The matching loop of `analyze_food_image`: try each candidate in the
order given and stop at the first label that matches the database. -/
def tryCandidates (database : List (DBEntry α)) :
    List (Str × β) → Option (MatchedResult α β)
  | [] => none
  | (label, confidence) :: rest =>
      match match_food label database with
      | some matched => some ⟨matched, label, confidence⟩
      | none => tryCandidates database rest

/-- Translation of `analyze_food_image` (ml_food_analyzer.py).  The external
classifier output (`predict_food`) is passed in as the ordered candidate
list; the function returns the first successful match, augmented with the
winning label and confidence, together with all attempted labels. -/
def analyze_food_image (predictions : List (Str × β)) (database : List (DBEntry α)) :
    Option (MatchedResult α β) × List Str :=
  let detected_labels := predictions.map Prod.fst
  (tryCandidates database predictions, detected_labels)

/-- Python `dict.get` on an insertion-ordered dictionary, modelled as an
association list in definition order. -/
def dictGet {γ : Type} (d : List (Str × γ)) (k : Str) : Option γ :=
  (d.find? fun kv => kv.1 == k).map Prod.snd

/-- The `FOOD_TO_CARRIER` table of food_mapper.py, in its definition
order. -/
def FOOD_TO_CARRIER : List (Str × Str) := [
  (str "pumpkin seed", str "Pumpkin Seed Oil"),
  (str "pumpkin seeds", str "Pumpkin Seed Oil"),
  (str "avocado", str "Avocado Oil"),
  (str "avocado oil", str "Avocado Oil"),
  (str "coconut", str "Coconut Oil"),
  (str "coconut oil", str "Coconut Oil"),
  (str "olive", str "Olive Oil"),
  (str "olive oil", str "Olive Oil"),
  (str "argan", str "Argan Oil"),
  (str "argan oil", str "Argan Oil"),
  (str "jojoba", str "Jojoba Oil"),
  (str "jojoba oil", str "Jojoba Oil"),
  (str "almond", str "Almond Oil"),
  (str "almond oil", str "Almond Oil"),
  (str "grapeseed", str "Grapeseed Oil"),
  (str "grapeseed oil", str "Grapeseed Oil"),
  (str "sunflower", str "Sunflower Oil"),
  (str "sunflower oil", str "Sunflower Oil"),
  (str "shea butter", str "Shea Butter"),
  (str "cocoa butter", str "Cocoa Butter"),
  (str "cocoa", str "Cocoa Butter"),
  (str "sesame", str "Sesame Oil"),
  (str "sesame oil", str "Sesame Oil"),
  (str "rosehip", str "Rosehip Seed Oil"),
  (str "rosehip seed", str "Rosehip Seed Oil"),
  (str "rosehip oil", str "Rosehip Seed Oil"),
  (str "castor", str "Castor Oil"),
  (str "castor oil", str "Castor Oil")]

/-- A value of the `COMEDOGENIC_DB` table of food_mapper.py. -/
structure ComedogenicRecord where
  is_comedogenic : Bool
  grade : Str
  notes : Str
deriving DecidableEq

/-- The `COMEDOGENIC_DB` table of food_mapper.py, in its definition
order. -/
def COMEDOGENIC_DB : List (Str × ComedogenicRecord) := [
  (str "Pumpkin Seed Oil",
    ⟨false, str "0", str "Non-comedogenic, excellent for acne-prone skin"⟩),
  (str "Avocado Oil",
    ⟨true, str "2-3", str "Moderately comedogenic, use with caution on oily/acne-prone skin"⟩),
  (str "Coconut Oil",
    ⟨true, str "4", str "Highly comedogenic, avoid on acne-prone skin"⟩),
  (str "Olive Oil",
    ⟨true, str "2", str "Moderately comedogenic, may clog pores"⟩),
  (str "Argan Oil",
    ⟨false, str "0", str "Non-comedogenic, suitable for all skin types"⟩),
  (str "Jojoba Oil",
    ⟨false, str "0", str "Non-comedogenic, mimics skin's natural sebum"⟩),
  (str "Almond Oil",
    ⟨false, str "1-2", str "Low to moderately comedogenic"⟩),
  (str "Grapeseed Oil",
    ⟨false, str "1", str "Low comedogenic potential, suitable for most skin types"⟩),
  (str "Sunflower Oil",
    ⟨false, str "0-1", str "Non to low comedogenic, good for sensitive skin"⟩),
  (str "Shea Butter",
    ⟨false, str "0", str "Non-comedogenic, excellent moisturizer"⟩),
  (str "Cocoa Butter",
    ⟨true, str "4", str "Highly comedogenic, heavy and pore-clogging"⟩),
  (str "Sesame Oil",
    ⟨false, str "1-2", str "Low to moderately comedogenic"⟩),
  (str "Rosehip Seed Oil",
    ⟨false, str "0", str "Non-comedogenic, excellent for acne-prone and aging skin"⟩),
  (str "Castor Oil",
    ⟨false, str "0", str "Non-comedogenic, viscous oil"⟩)]

/-- The partial-matching loop of `get_ingredient_info`: first key that is a
substring of the input or contains it wins, in definition order. -/
def partialScan (food_lower : Str) : List (Str × Str) → Option Str
  | [] => none
  | (food_key, carrier_value) :: rest =>
      if pyIn food_key food_lower || pyIn food_lower food_key then some carrier_value
      else partialScan food_lower rest

/-- Translation of `get_ingredient_info` (food_mapper.py), parametrised by
the two tables it reads.  Python truthiness on `carrier` coincides with the
`Option` here because every carrier value in the table is a nonempty
string. -/
def get_ingredient_info_core (ftc : List (Str × Str))
    (cdb : List (Str × ComedogenicRecord)) (food_name : Str) :
    Option ComedogenicRecord :=
  let food_lower := pyStrip (pyLower food_name)
  let carrier :=
    match dictGet ftc food_lower with
    | some c => some c
    | none => partialScan food_lower ftc
  match carrier with
  | none => none
  | some c => dictGet cdb c

/-- `get_ingredient_info` applied to the tables hardcoded in
food_mapper.py. -/
def get_ingredient_info (food_name : Str) : Option ComedogenicRecord :=
  get_ingredient_info_core FOOD_TO_CARRIER COMEDOGENIC_DB food_name

/-- The fixed path of the external database read by
`load_acne_food_database`. -/
def acne_db_path : Str := str "data/acne_food_database.json"

/-- The configuration failure raised by `load_acne_food_database` when the
database file is absent. -/
inductive LoadError where
  | fileNotFound (path : Str)
deriving DecidableEq

/-- Translation of `load_acne_food_database` (ml_food_analyzer.py).  The
filesystem is modelled as a map from paths to already-parsed database
contents; a missing file raises `FileNotFoundError`. -/
def load_acne_food_database (fs : Str → Option (List (DBEntry α))) :
    Except LoadError (List (DBEntry α)) :=
  match fs acne_db_path with
  | none => Except.error (LoadError.fileNotFound acne_db_path)
  | some db => Except.ok db

/-- Translation of `match_food` with its `database: Optional` parameter: a
missing database is loaded first (and may raise), a supplied database is
used as is. -/
def match_food_full (fs : Str → Option (List (DBEntry α))) (label : Str)
    (database : Option (List (DBEntry α))) : Except LoadError (Option (DBEntry α)) :=
  match database with
  | some db => Except.ok (match_food label db)
  | none =>
      match load_acne_food_database fs with
      | Except.error e => Except.error e
      | Except.ok db => Except.ok (match_food label db)

/-- The module-level tables of food_mapper.py, threaded explicitly as state
so that absence of mutation is expressible. -/
structure AppTables where
  food_to_carrier : List (Str × Str)
  comedogenic_db : List (Str × ComedogenicRecord)
deriving DecidableEq

/-- State-passing form of `get_ingredient_info`: the source body contains
no assignment to the module tables, so the translation returns them
unchanged. -/
def get_ingredient_info_st (t : AppTables) (food_name : Str) :
    Option ComedogenicRecord × AppTables :=
  (get_ingredient_info_core t.food_to_carrier t.comedogenic_db food_name, t)

/-- State-passing form of `match_food`: the source reads the database
entries but never assigns into them. -/
def match_food_st (label : Str) (database : List (DBEntry α)) :
    Option (DBEntry α) × List (DBEntry α) :=
  (match_food label database, database)

/-- State-passing form of `analyze_food_image`: the added metadata fields
go onto `matched.copy()`, never onto the stored entry, so the database
state passes through unchanged. -/
def analyze_food_image_st (predictions : List (Str × β)) (database : List (DBEntry α)) :
    (Option (MatchedResult α β) × List Str) × List (DBEntry α) :=
  (analyze_food_image predictions database, database)

/-- Step (3) of the Name Normalizer of spec section 4.1, read literally:
collapse every maximal run of whitespace into one single space.  Stated
independently of the source's `' '.join(s.split())` so that the two can be
compared. -/
def squeezeWs : Str → Str
  | [] => []
  | c :: cs =>
      if pyIsSpace c then ' ' :: squeezeWs (cs.dropWhile pyIsSpace)
      else c :: squeezeWs cs
termination_by l => l.length
decreasing_by
  · have h := (List.dropWhile_sublist (l := cs) pyIsSpace).length_le
    simp only [List.length_cons]
    omega
  · simp

/-- Trailing-whitespace trim, the second half of `pyStrip`. -/
def rtrimWs (s : Str) : Str := (s.reverse.dropWhile pyIsSpace).reverse

/-- The Name Normalizer of spec section 4.1 assembled from the spec's own
three steps in order: lowercase, replace each underscore and hyphen by a
space, collapse whitespace runs and trim both ends. -/
def normalizeBySpecSteps (name : Str) : Str :=
  pyStrip (squeezeWs (replaceChar '-' ' ' (replaceChar '_' ' ' (pyLower name))))

/-! Character-level facts about ASCII case folding. -/

theorem char_toNat_ofNat_small (n : Nat) (h1 : 65 ≤ n) (h2 : n ≤ 122) :
    (Char.ofNat n).toNat = n := by
  have hv : n.isValidChar := Or.inl (by omega)
  simp [Char.ofNat, hv, Char.toNat, Char.ofNatAux, UInt32.toNat, BitVec.toNat_ofNatLt]

theorem char_toLower_idem (c : Char) : c.toLower.toLower = c.toLower := by
  unfold Char.toLower
  by_cases h : c.toNat ≥ 65 ∧ c.toNat ≤ 90
  · simp only [h, and_self, if_true]
    have := char_toNat_ofNat_small (c.toNat + 32) (by omega) (by omega)
    rw [if_neg (by omega)]
  · simp [h]

/-! Generic list helpers about `dropWhile`, `map` and `intercalate`. -/

theorem dropWhile_head_false {γ : Type} {p : γ → Bool} :
    ∀ {l : List γ} {c : γ} {cs : List γ}, l.dropWhile p = c :: cs → p c = false := by
  intro l
  induction l with
  | nil => intro c cs h; simp at h
  | cons a as ih =>
      intro c cs h
      rw [List.dropWhile_cons] at h
      by_cases hp : p a
      · exact ih (by simpa [hp] using h)
      · rw [if_neg (by simpa using hp)] at h
        cases h
        simpa using hp

theorem dropWhile_eq_self_of_all {γ : Type} {p : γ → Bool} {l : List γ}
    (h : ∀ c ∈ l, p c = false) : l.dropWhile p = l := by
  cases l with
  | nil => rfl
  | cons a as => rw [List.dropWhile_cons, if_neg (by simp [h a (by simp)])]

theorem dropWhile_idem {γ : Type} (p : γ → Bool) (l : List γ) :
    (l.dropWhile p).dropWhile p = l.dropWhile p := by
  cases h : l.dropWhile p with
  | nil => rfl
  | cons c cs => rw [List.dropWhile_cons, if_neg (by simp [dropWhile_head_false h])]

theorem dropWhile_append_of_ne_nil {γ : Type} {p : γ → Bool} {a : List γ}
    (b : List γ) (h : a.dropWhile p ≠ []) :
    (a ++ b).dropWhile p = a.dropWhile p ++ b := by
  rw [List.dropWhile_append, if_neg (by simpa using h)]

theorem map_eq_self_of_fixed {γ : Type} {f : γ → γ} {l : List γ}
    (h : ∀ c ∈ l, f c = c) : l.map f = l := by
  have := List.map_congr_left (g := id) h
  simpa using this

theorem pyJoinSpace_nil : pyJoinSpace [] = [] := by
  simp [pyJoinSpace, List.intercalate, List.intersperse]

theorem pyJoinSpace_single (w : Str) : pyJoinSpace [w] = w := by
  simp [pyJoinSpace, List.intercalate, List.intersperse]

theorem pyJoinSpace_cons₂ (w v : Str) (t : List Str) :
    pyJoinSpace (w :: v :: t) = w ++ ' ' :: pyJoinSpace (v :: t) := by
  simp [pyJoinSpace, List.intercalate, List.intersperse_cons_cons]

theorem pyJoinSpace_cons_of_ne_nil (w : Str) {ws : List Str} (h : ws ≠ []) :
    pyJoinSpace (w :: ws) = w ++ ' ' :: pyJoinSpace ws := by
  cases ws with
  | nil => exact absurd rfl h
  | cons v t => exact pyJoinSpace_cons₂ w v t

theorem mem_pyJoinSpace {c : Char} :
    ∀ {ws : List Str}, c ∈ pyJoinSpace ws → c = ' ' ∨ ∃ w ∈ ws, c ∈ w := by
  intro ws
  induction ws with
  | nil => intro h; rw [pyJoinSpace_nil] at h; simp at h
  | cons w t ih =>
      intro h
      cases t with
      | nil =>
          rw [pyJoinSpace_single] at h
          exact Or.inr ⟨w, by simp, h⟩
      | cons v t2 =>
          rw [pyJoinSpace_cons₂] at h
          rcases List.mem_append.mp h with hw | hrest
          · exact Or.inr ⟨w, by simp, hw⟩
          · rcases List.mem_cons.mp hrest with hsp | htail
            · exact Or.inl hsp
            · rcases ih htail with hsp | ⟨u, hu, hcu⟩
              · exact Or.inl hsp
              · exact Or.inr ⟨u, by simp [hu], hcu⟩

/-! Facts about `splitOnP` and the whitespace splitter `pySplitWs`. -/

theorem splitOnP_chunk_false {p : Char → Bool} :
    ∀ {l w : Str}, w ∈ l.splitOnP p → ∀ c ∈ w, p c = false := by
  intro l
  induction l with
  | nil =>
      intro w hw c hc
      rw [List.splitOnP_nil] at hw
      simp at hw
      simp [hw] at hc
  | cons a as ih =>
      intro w hw c hc
      rw [List.splitOnP_cons] at hw
      by_cases hp : p a
      · rw [if_pos hp] at hw
        rcases List.mem_cons.mp hw with h0 | h1
        · simp [h0] at hc
        · exact ih h1 c hc
      · rw [if_neg (by simpa using hp)] at hw
        cases hsp : as.splitOnP p with
        | nil => exact absurd hsp (List.splitOnP_ne_nil p as)
        | cons h t =>
            rw [hsp, List.modifyHead_cons] at hw
            rcases List.mem_cons.mp hw with h0 | h1
            · subst h0
              rcases List.mem_cons.mp hc with hca | hch
              · subst hca; simpa using hp
              · exact ih (by simp [hsp]) c hch
            · exact ih (by simp [hsp, h1]) c hc

theorem splitOnP_chunk_mem {p : Char → Bool} :
    ∀ {l w : Str}, w ∈ l.splitOnP p → ∀ c ∈ w, c ∈ l := by
  intro l
  induction l with
  | nil =>
      intro w hw c hc
      rw [List.splitOnP_nil] at hw
      simp at hw
      simp [hw] at hc
  | cons a as ih =>
      intro w hw c hc
      rw [List.splitOnP_cons] at hw
      by_cases hp : p a
      · rw [if_pos hp] at hw
        rcases List.mem_cons.mp hw with h0 | h1
        · simp [h0] at hc
        · exact List.mem_cons_of_mem a (ih h1 c hc)
      · rw [if_neg (by simpa using hp)] at hw
        cases hsp : as.splitOnP p with
        | nil => exact absurd hsp (List.splitOnP_ne_nil p as)
        | cons h t =>
            rw [hsp, List.modifyHead_cons] at hw
            rcases List.mem_cons.mp hw with h0 | h1
            · subst h0
              rcases List.mem_cons.mp hc with hca | hch
              · simp [hca]
              · exact List.mem_cons_of_mem a (ih (by simp [hsp]) c hch)
            · exact List.mem_cons_of_mem a (ih (by simp [hsp, h1]) c hc)

theorem splitOnP_word_append {p : Char → Bool} :
    ∀ {w : Str} (l : Str), (∀ c ∈ w, p c = false) →
      (w ++ l).splitOnP p = (l.splitOnP p).modifyHead (w ++ ·) := by
  intro w
  induction w with
  | nil =>
      intro l _
      cases hsp : l.splitOnP p with
      | nil => exact absurd hsp (List.splitOnP_ne_nil p l)
      | cons h t => simp [hsp]
  | cons a w' ih =>
      intro l hw
      have ha : p a = false := hw a (by simp)
      have hw' : ∀ c ∈ w', p c = false := fun c hc => hw c (by simp [hc])
      rw [List.cons_append, List.splitOnP_cons, if_neg (by simp [ha]), ih l hw']
      cases hsp : l.splitOnP p with
      | nil => exact absurd hsp (List.splitOnP_ne_nil p l)
      | cons h t => simp [hsp]

theorem pySplitWs_space_cons {c : Char} (hc : pyIsSpace c = true) (l : Str) :
    pySplitWs (c :: l) = pySplitWs l := by
  unfold pySplitWs
  rw [List.splitOnP_cons, if_pos hc]
  simp

theorem pySplitWs_nil : pySplitWs [] = [] := by
  unfold pySplitWs
  rw [List.splitOnP_nil]
  simp

theorem pySplitWs_dropWhile (l : Str) :
    pySplitWs (l.dropWhile pyIsSpace) = pySplitWs l := by
  induction l with
  | nil => rfl
  | cons a as ih =>
      rw [List.dropWhile_cons]
      by_cases hp : pyIsSpace a
      · rw [if_pos hp, ih, pySplitWs_space_cons hp]
      · rw [if_neg (by simpa using hp)]

theorem pySplitWs_word_append {w : Str} (hw : ∀ c ∈ w, pyIsSpace c = false)
    (hne : w ≠ []) {r : Str}
    (hr : r = [] ∨ ∃ d dr, r = d :: dr ∧ pyIsSpace d = true) :
    pySplitWs (w ++ r) = w :: pySplitWs r := by
  unfold pySplitWs
  rw [splitOnP_word_append r hw]
  rcases hr with hr0 | ⟨d, dr, hrc, hd⟩
  · subst hr0
    rw [List.splitOnP_nil]
    simp [hne]
  · subst hrc
    rw [List.splitOnP_cons, if_pos hd, List.modifyHead_cons]
    simp [hne]

theorem pySplitWs_goodWords :
    ∀ {l w : Str}, w ∈ pySplitWs l → w ≠ [] ∧ ∀ c ∈ w, pyIsSpace c = false := by
  intro l w hw
  unfold pySplitWs at hw
  have h1 := List.mem_filter.mp hw
  exact ⟨by simpa using h1.2, splitOnP_chunk_false h1.1⟩

theorem pySplitWs_chars_mem :
    ∀ {l w : Str}, w ∈ pySplitWs l → ∀ c ∈ w, c ∈ l := by
  intro l w hw
  unfold pySplitWs at hw
  exact splitOnP_chunk_mem (List.mem_filter.mp hw).1

theorem pySplitWs_roundtrip :
    ∀ {ws : List Str}, (∀ w ∈ ws, w ≠ [] ∧ ∀ c ∈ w, pyIsSpace c = false) →
      pySplitWs (pyJoinSpace ws) = ws := by
  intro ws
  induction ws with
  | nil => intro _; rw [pyJoinSpace_nil, pySplitWs_nil]
  | cons w t ih =>
      intro hgood
      have hw := hgood w (by simp)
      cases t with
      | nil =>
          rw [pyJoinSpace_single]
          have : pySplitWs (w ++ ([] : Str)) = w :: pySplitWs [] :=
            pySplitWs_word_append hw.2 hw.1 (Or.inl rfl)
          simpa [pySplitWs_nil] using this
      | cons v t2 =>
          rw [pyJoinSpace_cons₂]
          rw [pySplitWs_word_append hw.2 hw.1
            (Or.inr ⟨' ', pyJoinSpace (v :: t2), rfl, by decide⟩)]
          rw [pySplitWs_space_cons (by decide)]
          rw [ih fun u hu => hgood u (by simp [hu])]

/-! Invariants of the normalized form produced by `normalize_food_name`. -/

theorem normalize_chars (s : Str) :
    ∀ c ∈ normalize_food_name s, Char.toLower c = c ∧ c ≠ '_' ∧ c ≠ '-' := by
  intro c hc
  rcases mem_pyJoinSpace hc with hsp | ⟨w, hw, hcw⟩
  · subst hsp
    refine ⟨by decide, by decide, by decide⟩
  · have hmem : c ∈ replaceChar '-' ' ' (replaceChar '_' ' ' (pyLower s)) :=
      pySplitWs_chars_mem hw c hcw
    obtain ⟨y, hy, hyc⟩ := List.mem_map.mp hmem
    obtain ⟨z, hz, hzy⟩ := List.mem_map.mp hy
    obtain ⟨x, _, hxz⟩ := List.mem_map.mp hz
    subst hyc hzy hxz
    by_cases h1 : x.toLower = '_'
    · rw [if_pos h1]
      rw [if_neg (by decide)]
      refine ⟨by decide, by decide, by decide⟩
    · rw [if_neg h1]
      by_cases h2 : x.toLower = '-'
      · rw [if_pos h2]
        refine ⟨by decide, by decide, by decide⟩
      · rw [if_neg h2]
        exact ⟨char_toLower_idem x, h1, h2⟩

theorem normalize_of_joined (ws : List Str)
    (hgood : ∀ w ∈ ws, w ≠ [] ∧ ∀ c ∈ w, pyIsSpace c = false)
    (hchars : ∀ c ∈ pyJoinSpace ws, Char.toLower c = c ∧ c ≠ '_' ∧ c ≠ '-') :
    normalize_food_name (pyJoinSpace ws) = pyJoinSpace ws := by
  have h1 : pyLower (pyJoinSpace ws) = pyJoinSpace ws :=
    map_eq_self_of_fixed fun c hc => (hchars c hc).1
  have h2 : replaceChar '_' ' ' (pyJoinSpace ws) = pyJoinSpace ws :=
    map_eq_self_of_fixed fun c hc => if_neg (hchars c hc).2.1
  have h3 : replaceChar '-' ' ' (pyJoinSpace ws) = pyJoinSpace ws :=
    map_eq_self_of_fixed fun c hc => if_neg (hchars c hc).2.2
  unfold normalize_food_name
  rw [h1, h2, h3, pySplitWs_roundtrip hgood]

/-- C5: `normalize_food_name` is idempotent.  (Totality and absence of
failure modes hold by construction: the translation is a plain function on
all of `Str`.) -/
theorem normalize_food_name_idem :
    ∀ s : Str, normalize_food_name (normalize_food_name s) = normalize_food_name s := by
  intro s
  have hrepr : normalize_food_name s =
      pyJoinSpace (pySplitWs (replaceChar '-' ' ' (replaceChar '_' ' ' (pyLower s)))) := rfl
  rw [hrepr]
  rw [normalize_of_joined _ (fun w hw => pySplitWs_goodWords hw)
    (fun c hc => normalize_chars s (c := c) (by rw [hrepr]; exact hc))]

/-! Equivalence of the source normalizer with the spec's collapse-and-trim
description. -/

theorem squeezeWs_nil : squeezeWs [] = [] := by simp [squeezeWs]

theorem squeezeWs_cons (c : Char) (cs : Str) :
    squeezeWs (c :: cs) =
      if pyIsSpace c then ' ' :: squeezeWs (cs.dropWhile pyIsSpace)
      else c :: squeezeWs cs := by
  rw [squeezeWs]

theorem pyStrip_eq_rtrim_dropWhile (s : Str) :
    pyStrip s = rtrimWs (s.dropWhile pyIsSpace) := rfl

theorem rtrimWs_eq_self_of_all {x : Str} (h : ∀ c ∈ x, pyIsSpace c = false) :
    rtrimWs x = x := by
  unfold rtrimWs
  rw [dropWhile_eq_self_of_all fun c hc => h c (List.mem_reverse.mp hc), List.reverse_reverse]

theorem rtrimWs_append_space (x : Str) : rtrimWs (x ++ [' ']) = rtrimWs x := by
  unfold rtrimWs
  rw [List.reverse_append]
  simp only [List.reverse_cons, List.reverse_nil, List.nil_append, List.singleton_append,
    List.dropWhile_cons]
  rw [if_pos (by decide)]

theorem rtrimWs_ne_nil_iff {x : Str} : rtrimWs x ≠ [] ↔ x.reverse.dropWhile pyIsSpace ≠ [] := by
  unfold rtrimWs
  simp

theorem rtrimWs_append_of_ne_nil (x : Str) {y : Str} (h : rtrimWs y ≠ []) :
    rtrimWs (x ++ y) = x ++ rtrimWs y := by
  unfold rtrimWs
  rw [List.reverse_append,
    dropWhile_append_of_ne_nil x.reverse (rtrimWs_ne_nil_iff.mp h),
    List.reverse_append, List.reverse_reverse]

theorem squeezeWs_word_append {w : Str} (r : Str) (hw : ∀ c ∈ w, pyIsSpace c = false) :
    squeezeWs (w ++ r) = w ++ squeezeWs r := by
  induction w with
  | nil => simp
  | cons a w' ih =>
      rw [List.cons_append, squeezeWs_cons, if_neg (by simp [hw a (by simp)])]
      rw [ih fun c hc => hw c (by simp [hc])]
      rfl

theorem dropWhile_squeezeWs :
    ∀ (n : Nat) (l : Str), l.length ≤ n →
      (squeezeWs l).dropWhile pyIsSpace = squeezeWs (l.dropWhile pyIsSpace) := by
  intro n
  induction n with
  | zero =>
      intro l hl
      rw [List.length_eq_zero.mp (Nat.le_zero.mp hl)]
      simp [squeezeWs_nil]
  | succ n ih =>
      intro l hl
      cases l with
      | nil => simp [squeezeWs_nil]
      | cons c cs =>
          rw [squeezeWs_cons, List.dropWhile_cons]
          by_cases hc : pyIsSpace c
          · rw [if_pos hc, if_pos hc, List.dropWhile_cons,
              if_pos (show pyIsSpace ' ' = true by decide)]
            have hlen : (cs.dropWhile pyIsSpace).length ≤ n := by
              have := (List.dropWhile_sublist (l := cs) pyIsSpace).length_le
              simp only [List.length_cons] at hl
              omega
            rw [ih _ hlen, dropWhile_idem]
          · rw [if_neg (by simpa using hc), if_neg (by simpa using hc),
              List.dropWhile_cons, if_neg (by simpa using hc), squeezeWs_cons,
              if_neg (by simpa using hc)]

theorem pySplitWs_head_word {e : Char} (es : Str) (he : pyIsSpace e = false) :
    ∃ w0 t, pySplitWs (e :: es) = w0 :: t ∧ w0 ≠ [] := by
  have hdecomp : e :: es =
      (e :: es.takeWhile fun d => !pyIsSpace d) ++ es.dropWhile fun d => !pyIsSpace d := by
    rw [List.cons_append, List.takeWhile_append_dropWhile]
  refine ⟨e :: es.takeWhile fun d => !pyIsSpace d, pySplitWs (es.dropWhile fun d => !pyIsSpace d),
    ?_, by simp⟩
  rw [hdecomp]
  refine pySplitWs_word_append ?_ (by simp) ?_
  · intro c hc
    rcases List.mem_cons.mp hc with h0 | h1
    · simpa [h0] using he
    · simpa using List.mem_takeWhile_imp h1
  · cases hr : es.dropWhile fun d => !pyIsSpace d with
    | nil => exact Or.inl rfl
    | cons d dr =>
        refine Or.inr ⟨d, dr, rfl, ?_⟩
        have := dropWhile_head_false hr
        simpa using this

theorem pyJoinSpace_ne_nil {w0 : Str} (t : List Str) (h : w0 ≠ []) :
    pyJoinSpace (w0 :: t) ≠ [] := by
  cases t with
  | nil => rw [pyJoinSpace_single]; exact h
  | cons v t2 => rw [pyJoinSpace_cons₂]; simp [h]

theorem rtrim_word_squeeze :
    ∀ (n : Nat) (r : Str), r.length ≤ n →
      (r = [] ∨ ∃ d dr, r = d :: dr ∧ pyIsSpace d = true) →
      ∀ w : Str, w ≠ [] → (∀ c ∈ w, pyIsSpace c = false) →
        rtrimWs (w ++ squeezeWs r) = pyJoinSpace (w :: pySplitWs r) := by
  intro n
  induction n with
  | zero =>
      intro r hr _ w hw hwchars
      rw [List.length_eq_zero.mp (Nat.le_zero.mp hr), squeezeWs_nil, List.append_nil,
        pySplitWs_nil, pyJoinSpace_single]
      exact rtrimWs_eq_self_of_all hwchars
  | succ n ih =>
      intro r hr hshape w hw hwchars
      rcases hshape with h0 | ⟨d, dr, hrc, hd⟩
      · rw [h0, squeezeWs_nil, List.append_nil, pySplitWs_nil, pyJoinSpace_single]
        exact rtrimWs_eq_self_of_all hwchars
      · subst hrc
        rw [squeezeWs_cons, if_pos hd]
        have hsplit_r : pySplitWs (d :: dr) = pySplitWs (dr.dropWhile pyIsSpace) := by
          rw [pySplitWs_space_cons hd, pySplitWs_dropWhile]
        cases hm2 : dr.dropWhile pyIsSpace with
        | nil =>
            rw [squeezeWs_nil, hsplit_r, hm2, pySplitWs_nil, pyJoinSpace_single,
              rtrimWs_append_space]
            exact rtrimWs_eq_self_of_all hwchars
        | cons e es =>
            have he : pyIsSpace e = false := dropWhile_head_false hm2
            have hes_decomp : e :: es =
                (e :: es.takeWhile fun x => !pyIsSpace x) ++
                  es.dropWhile fun x => !pyIsSpace x := by
              rw [List.cons_append, List.takeWhile_append_dropWhile]
            have hword2 : ∀ c ∈ e :: es.takeWhile fun x => !pyIsSpace x,
                pyIsSpace c = false := by
              intro c hc
              rcases List.mem_cons.mp hc with h1 | h2
              · simpa [h1] using he
              · simpa using List.mem_takeWhile_imp h2
            have hr2shape : (es.dropWhile fun x => !pyIsSpace x) = [] ∨
                ∃ d2 dr2, (es.dropWhile fun x => !pyIsSpace x) = d2 :: dr2 ∧
                  pyIsSpace d2 = true := by
              cases hr2 : es.dropWhile fun x => !pyIsSpace x with
              | nil => exact Or.inl rfl
              | cons d2 dr2 =>
                  refine Or.inr ⟨d2, dr2, rfl, ?_⟩
                  have := dropWhile_head_false hr2
                  simpa using this
            have hlen2 : (es.dropWhile fun x => !pyIsSpace x).length ≤ n := by
              have h1 := (List.dropWhile_sublist (l := es) fun x => !pyIsSpace x).length_le
              have h2 := (List.dropWhile_sublist (l := dr) pyIsSpace).length_le
              rw [hm2] at h2
              simp only [List.length_cons] at hr h2
              omega
            have hIH := ih (es.dropWhile fun x => !pyIsSpace x) hlen2 hr2shape
              (e :: es.takeWhile fun x => !pyIsSpace x) (by simp) hword2
            have hsq2 : squeezeWs (e :: es) =
                (e :: es.takeWhile fun x => !pyIsSpace x) ++
                  squeezeWs (es.dropWhile fun x => !pyIsSpace x) := by
              conv_lhs => rw [hes_decomp]
              exact squeezeWs_word_append _ hword2
            have hsp2 : pySplitWs (e :: es) =
                (e :: es.takeWhile fun x => !pyIsSpace x) ::
                  pySplitWs (es.dropWhile fun x => !pyIsSpace x) := by
              conv_lhs => rw [hes_decomp]
              exact pySplitWs_word_append hword2 (by simp) hr2shape
            have hne2 : rtrimWs (squeezeWs (e :: es)) ≠ [] := by
              rw [hsq2, hIH]
              exact pyJoinSpace_ne_nil _ (by simp)
            have hgroup : w ++ ' ' :: squeezeWs (e :: es) =
                (w ++ [' ']) ++ squeezeWs (e :: es) := by
              simp
            rw [hgroup, rtrimWs_append_of_ne_nil _ hne2, hsq2, hIH, hsplit_r, hm2, hsp2]
            rw [pyJoinSpace_cons_of_ne_nil w (show ((e :: es.takeWhile fun x => !pyIsSpace x) ::
              pySplitWs (es.dropWhile fun x => !pyIsSpace x)) ≠ [] by simp)]
            simp

theorem rtrim_squeezeWs_eq_join_split (m : Str)
    (hshape : m = [] ∨ ∃ c cs, m = c :: cs ∧ pyIsSpace c = false) :
    rtrimWs (squeezeWs m) = pyJoinSpace (pySplitWs m) := by
  rcases hshape with h0 | ⟨c, cs, hcons, hc⟩
  · rw [h0, squeezeWs_nil, pySplitWs_nil, pyJoinSpace_nil]
    rfl
  · subst hcons
    have hword : ∀ d ∈ c :: cs.takeWhile fun x => !pyIsSpace x, pyIsSpace d = false := by
      intro d hd
      rcases List.mem_cons.mp hd with h1 | h2
      · simpa [h1] using hc
      · simpa using List.mem_takeWhile_imp h2
    have hdecomp : c :: cs =
        (c :: cs.takeWhile fun x => !pyIsSpace x) ++ cs.dropWhile fun x => !pyIsSpace x := by
      rw [List.cons_append, List.takeWhile_append_dropWhile]
    have hrshape : (cs.dropWhile fun x => !pyIsSpace x) = [] ∨
        ∃ d dr, (cs.dropWhile fun x => !pyIsSpace x) = d :: dr ∧ pyIsSpace d = true := by
      cases hr : cs.dropWhile fun x => !pyIsSpace x with
      | nil => exact Or.inl rfl
      | cons d dr =>
          refine Or.inr ⟨d, dr, rfl, ?_⟩
          have := dropWhile_head_false hr
          simpa using this
    rw [hdecomp, squeezeWs_word_append _ hword,
      pySplitWs_word_append hword (by simp) hrshape]
    exact rtrim_word_squeeze (cs.dropWhile fun x => !pyIsSpace x).length _ le_rfl hrshape _
      (by simp) hword

/-- The source normalizer agrees with the literal reading of the spec's
three steps. -/
theorem normalize_eq_spec_steps (s : Str) :
    normalize_food_name s = normalizeBySpecSteps s := by
  unfold normalizeBySpecSteps
  rw [pyStrip_eq_rtrim_dropWhile,
    dropWhile_squeezeWs (replaceChar '-' ' ' (replaceChar '_' ' ' (pyLower s))).length _
      le_rfl]
  have hshape : ((replaceChar '-' ' ' (replaceChar '_' ' ' (pyLower s))).dropWhile
        pyIsSpace) = [] ∨
      ∃ c cs, ((replaceChar '-' ' ' (replaceChar '_' ' ' (pyLower s))).dropWhile
        pyIsSpace) = c :: cs ∧ pyIsSpace c = false := by
    cases h : (replaceChar '-' ' ' (replaceChar '_' ' ' (pyLower s))).dropWhile pyIsSpace with
    | nil => exact Or.inl rfl
    | cons c cs => exact Or.inr ⟨c, cs, rfl, dropWhile_head_false h⟩
  rw [rtrim_squeezeWs_eq_join_split _ hshape, pySplitWs_dropWhile]
  rfl

/-! Characterizations of the matching loops as first-match searches. -/

theorem exactPass_eq_find (nl : Str) :
    ∀ db : List (DBEntry α), exactPass nl db =
      db.find? fun e => normalize_food_name e.food == nl := by
  intro db
  induction db with
  | nil => rfl
  | cons e rest ih =>
      simp only [exactPass]
      by_cases h : normalize_food_name e.food = nl
      · rw [if_pos h]
        exact (show List.find? (fun x => normalize_food_name x.food == nl) (e :: rest) =
          some e from List.find?_cons_of_pos rest (beq_iff_eq.mpr h)).symm
      · rw [if_neg h, ih]
        exact (show List.find? (fun x => normalize_food_name x.food == nl) (e :: rest) =
          List.find? (fun x => normalize_food_name x.food == nl) rest from
          List.find?_cons_of_neg rest (by simp [h])).symm

theorem containsPass_eq_find (nl : Str) :
    ∀ db : List (DBEntry α), containsPass nl db =
      db.find? fun e => pyIn (normalize_food_name e.food) nl
        || pyIn nl (normalize_food_name e.food) := by
  intro db
  induction db with
  | nil => rfl
  | cons e rest ih =>
      simp only [containsPass]
      cases h : pyIn (normalize_food_name e.food) nl
        || pyIn nl (normalize_food_name e.food)
      · rw [if_neg (by simp [h]), ih]
        exact (show List.find? (fun x => pyIn (normalize_food_name x.food) nl
            || pyIn nl (normalize_food_name x.food)) (e :: rest) =
          List.find? (fun x => pyIn (normalize_food_name x.food) nl
            || pyIn nl (normalize_food_name x.food)) rest from
          List.find?_cons_of_neg rest (by simp [h])).symm
      · rw [if_pos (by simp [h])]
        exact (show List.find? (fun x => pyIn (normalize_food_name x.food) nl
            || pyIn nl (normalize_food_name x.food)) (e :: rest) =
          some e from List.find?_cons_of_pos rest h).symm

theorem partialScan_eq_find (fl : Str) :
    ∀ tbl : List (Str × Str), partialScan fl tbl =
      (tbl.find? fun kv => pyIn kv.1 fl || pyIn fl kv.1).map Prod.snd := by
  intro tbl
  induction tbl with
  | nil => rfl
  | cons kv rest ih =>
      obtain ⟨food_key, carrier_value⟩ := kv
      simp only [partialScan]
      cases h : pyIn food_key fl || pyIn fl food_key
      · rw [if_neg (by simp [h]), ih]
        have hstep : List.find? (fun kv => pyIn kv.1 fl || pyIn fl kv.1)
            ((food_key, carrier_value) :: rest) =
            List.find? (fun kv => pyIn kv.1 fl || pyIn fl kv.1) rest :=
          List.find?_cons_of_neg rest (by simp [h])
        rw [hstep]
      · rw [if_pos (by simp [h])]
        have hstep : List.find? (fun kv => pyIn kv.1 fl || pyIn fl kv.1)
            ((food_key, carrier_value) :: rest) = some (food_key, carrier_value) :=
          List.find?_cons_of_pos rest h
        rw [hstep]
        rfl

theorem match_food_eq_or_find (label : Str) (db : List (DBEntry α)) :
    match_food label db =
      ((db.find? fun e =>
          normalize_food_name e.food == normalize_food_name label).or
        (db.find? fun e =>
          pyIn (normalize_food_name e.food) (normalize_food_name label)
            || pyIn (normalize_food_name label) (normalize_food_name e.food))) := by
  cases h : exactPass (normalize_food_name label) db with
  | some e =>
      have hf : db.find?
          (fun e => normalize_food_name e.food == normalize_food_name label) = some e := by
        rw [← exactPass_eq_find]; exact h
      simp [match_food, h, hf, Option.or]
  | none =>
      have hf : db.find?
          (fun e => normalize_food_name e.food == normalize_food_name label) = none := by
        rw [← exactPass_eq_find]; exact h
      simp [match_food, h, hf, Option.or, containsPass_eq_find]

theorem match_food_mem {label : Str} {db : List (DBEntry α)} {e : DBEntry α}
    (h : match_food label db = some e) : e ∈ db := by
  rw [match_food_eq_or_find] at h
  cases hf : db.find? fun x =>
      normalize_food_name x.food == normalize_food_name label with
  | some e2 =>
      rw [hf] at h
      cases h
      exact List.mem_of_find?_eq_some hf
  | none =>
      rw [hf] at h
      exact List.mem_of_find?_eq_some h

theorem match_food_eq_none_split (label : Str) (db : List (DBEntry α)) :
    match_food label db = none ↔
      exactPass (normalize_food_name label) db = none ∧
      containsPass (normalize_food_name label) db = none := by
  cases h : exactPass (normalize_food_name label) db
  · simp [match_food, h]
  · simp [match_food, h]

theorem match_food_eq_none_iff (label : Str) (db : List (DBEntry α)) :
    match_food label db = none ↔ ∀ e ∈ db,
      normalize_food_name e.food ≠ normalize_food_name label ∧
      ¬(normalize_food_name e.food <:+: normalize_food_name label) ∧
      ¬(normalize_food_name label <:+: normalize_food_name e.food) := by
  rw [match_food_eq_none_split, exactPass_eq_find, containsPass_eq_find,
    List.find?_eq_none, List.find?_eq_none]
  constructor
  · intro h e he
    have h1 := h.1 e he
    have h2 := h.2 e he
    simp only [pyIn, Bool.or_eq_true, decide_eq_true_eq, not_or] at h1 h2
    exact ⟨by simpa using h1, h2.1, h2.2⟩
  · intro h
    constructor
    · intro e he
      simpa using (h e he).1
    · intro e he
      simp only [pyIn, Bool.or_eq_true, decide_eq_true_eq, not_or]
      exact ⟨(h e he).2.1, (h e he).2.2⟩

/-! Characterization of the orchestrator loop. -/

theorem tryCandidates_eq_some {db : List (DBEntry α)} :
    ∀ {preds : List (Str × β)} {r : MatchedResult α β},
      tryCandidates db preds = some r →
      ∃ pre p post, preds = pre ++ p :: post ∧
        (∀ q ∈ pre, match_food q.1 db = none) ∧
        match_food p.1 db = some r.entry ∧
        r.detected_label = p.1 ∧ r.confidence = p.2 := by
  intro preds
  induction preds with
  | nil => intro r h; simp [tryCandidates] at h
  | cons q rest ih =>
      intro r h
      obtain ⟨label, confidence⟩ := q
      simp only [tryCandidates] at h
      cases hm : match_food label db with
      | some m =>
          rw [hm] at h
          cases h
          exact ⟨[], (label, confidence), rest, by simp, by simp, hm, rfl, rfl⟩
      | none =>
          rw [hm] at h
          obtain ⟨pre, p, post, hsplit, hpre, hp, hl, hc⟩ := ih h
          refine ⟨(label, confidence) :: pre, p, post, by simp [hsplit], ?_, hp, hl, hc⟩
          intro q2 hq2
          rcases List.mem_cons.mp hq2 with h1 | h2
          · simpa [h1] using hm
          · exact hpre q2 h2

theorem tryCandidates_eq_none {db : List (DBEntry α)} :
    ∀ {preds : List (Str × β)}, tryCandidates db preds = none →
      ∀ q ∈ preds, match_food q.1 db = none := by
  intro preds
  induction preds with
  | nil => intro _ q hq; simp at hq
  | cons q0 rest ih =>
      intro h q hq
      obtain ⟨label, confidence⟩ := q0
      simp only [tryCandidates] at h
      cases hm : match_food label db with
      | some m => rw [hm] at h; cases h
      | none =>
          rw [hm] at h
          rcases List.mem_cons.mp hq with h1 | h2
          · simpa [h1] using hm
          · exact ih h q h2

/-! The claim theorems. -/

/-- C1: for every label and database, `match_food` first scans the whole
database in order and returns the first entry whose normalized `food`
equals the normalized label exactly; only when no entry matches exactly
does a second in-order scan return the first entry related to the label by
the symmetric substring test; `none` results when both scans fail.  In
particular, with database `[{food:"avocado"}, {food:"avocado oil"}]` and
label `"avocado_oil"` the `"avocado oil"` entry is returned, not the
earlier `"avocado"` entry. -/
theorem match_food_two_pass_spec :
    (∀ (α : Type) (label : Str) (db : List (DBEntry α)),
      match_food label db =
        ((db.find? fun e => normalize_food_name e.food == normalize_food_name label).or
          (db.find? fun e =>
            pyIn (normalize_food_name e.food) (normalize_food_name label)
              || pyIn (normalize_food_name label) (normalize_food_name e.food)))) ∧
    match_food (str "avocado_oil")
        [(⟨str "avocado", ()⟩ : DBEntry Unit), ⟨str "avocado oil", ()⟩] =
      some ⟨str "avocado oil", ()⟩ :=
  ⟨fun _ label db => match_food_eq_or_find label db, by decide⟩

/-- C2: the orchestrator tries the candidates in the order given, returns
the first candidate whose label matches the database augmented with that
winning candidate's label and confidence, reports every attempted label in
order, and returns a not-found result when no candidate matches.  In
particular, with candidates `[("banana", 0.9), ("avocado", 0.5)]` and a
database containing only an `"avocado"` entry, the result carries
confidence `0.5` and detected label `"avocado"`. -/
theorem analyze_food_image_spec :
    (∀ (α β : Type) (preds : List (Str × β)) (db : List (DBEntry α)),
      (analyze_food_image preds db).2 = preds.map Prod.fst) ∧
    (∀ (α β : Type) (preds : List (Str × β)) (db : List (DBEntry α))
        (r : MatchedResult α β),
      (analyze_food_image preds db).1 = some r →
        ∃ (pre : List (Str × β)) (p : Str × β) (post : List (Str × β)),
          preds = pre ++ p :: post ∧
          (∀ q ∈ pre, match_food q.1 db = none) ∧
          match_food p.1 db = some r.entry ∧
          r.detected_label = p.1 ∧ r.confidence = p.2) ∧
    (∀ (α β : Type) (preds : List (Str × β)) (db : List (DBEntry α)),
      (analyze_food_image preds db).1 = none → ∀ q ∈ preds, match_food q.1 db = none) ∧
    analyze_food_image [(str "banana", (0.9 : ℚ)), (str "avocado", 0.5)]
        [(⟨str "avocado", ()⟩ : DBEntry Unit)] =
      (some ⟨⟨str "avocado", ()⟩, str "avocado", 0.5⟩, [str "banana", str "avocado"]) :=
  ⟨fun _ _ _ _ => rfl,
   fun _ _ _ _ _ h => tryCandidates_eq_some h,
   fun _ _ _ _ h => tryCandidates_eq_none h,
   rfl⟩

/-- Witness for C2 at the concrete example: the found result decomposes as
the first matching candidate after a failing one. -/
theorem analyze_food_image_spec_witness :
    ∃ (pre : List (Str × ℚ)) (p : Str × ℚ) (post : List (Str × ℚ)),
      ([(str "banana", (0.9 : ℚ)), (str "avocado", 0.5)] : List (Str × ℚ)) =
        pre ++ p :: post ∧
      (∀ q ∈ pre, match_food q.1 [(⟨str "avocado", ()⟩ : DBEntry Unit)] = none) ∧
      match_food p.1 [(⟨str "avocado", ()⟩ : DBEntry Unit)] =
        some (MatchedResult.entry ⟨⟨str "avocado", ()⟩, str "avocado", 0.5⟩) ∧
      (MatchedResult.detected_label (β := ℚ)
        ⟨(⟨str "avocado", ()⟩ : DBEntry Unit), str "avocado", 0.5⟩) = p.1 ∧
      (MatchedResult.confidence ⟨(⟨str "avocado", ()⟩ : DBEntry Unit), str "avocado",
        (0.5 : ℚ)⟩) = p.2 :=
  analyze_food_image_spec.2.1 Unit ℚ
    [(str "banana", (0.9 : ℚ)), (str "avocado", 0.5)]
    [⟨str "avocado", ()⟩] ⟨⟨str "avocado", ()⟩, str "avocado", 0.5⟩ rfl

/-- C3: `get_ingredient_info` normalizes by lowercasing and trimming only
(underscores are kept, unlike `normalize_food_name`), resolves an exact
synonym-table key first, otherwise takes the first key in definition order
related to the input by the symmetric substring test, looks a resolved
canonical name up in the comedogenic table, and yields `none` when no key
matched. -/
theorem get_ingredient_info_spec :
    (∀ s : Str,
      get_ingredient_info s =
        ((dictGet FOOD_TO_CARRIER (pyStrip (pyLower s))).or
          ((FOOD_TO_CARRIER.find? fun kv =>
              pyIn kv.1 (pyStrip (pyLower s)) || pyIn (pyStrip (pyLower s)) kv.1).map
            Prod.snd)).bind
          fun c => dictGet COMEDOGENIC_DB c) ∧
    pyStrip (pyLower (str "Coconut_Oil")) = str "coconut_oil" ∧
    pyStrip (pyLower (str "Coconut_Oil")) ≠ normalize_food_name (str "Coconut_Oil") := by
  refine ⟨?_, by decide, by decide⟩
  intro s
  cases h1 : dictGet FOOD_TO_CARRIER (pyStrip (pyLower s)) with
  | some c =>
      simp [get_ingredient_info, get_ingredient_info_core, h1, Option.or]
  | none =>
      cases h2 : FOOD_TO_CARRIER.find? fun kv =>
          pyIn kv.1 (pyStrip (pyLower s)) || pyIn (pyStrip (pyLower s)) kv.1 with
      | some kv =>
          have hp : partialScan (pyStrip (pyLower s)) FOOD_TO_CARRIER = some kv.2 := by
            rw [partialScan_eq_find, h2]
            rfl
          simp [get_ingredient_info, get_ingredient_info_core, h1, hp, Option.or]
      | none =>
          have hp : partialScan (pyStrip (pyLower s)) FOOD_TO_CARRIER = none := by
            rw [partialScan_eq_find, h2]
            rfl
          simp [get_ingredient_info, get_ingredient_info_core, h1, hp, Option.or]

/-- C4: `normalize_food_name` performs exactly, in order: lowercasing,
replacing each underscore and hyphen by a single space, and collapsing
whitespace runs to single spaces with trimming at both ends; in particular
`normalize("Coconut_Oil")` and `normalize("coconut-oil")` both yield
`"coconut oil"`. -/
theorem normalize_food_name_steps_spec :
    (∀ s : Str, normalize_food_name s = normalizeBySpecSteps s) ∧
    normalize_food_name (str "Coconut_Oil") = str "coconut oil" ∧
    normalize_food_name (str "coconut-oil") = str "coconut oil" :=
  ⟨normalize_eq_spec_steps, by decide, by decide⟩

/-- C6: over the hardcoded tables, `"Pumpkin Seeds"` resolves to the
record stored under `"Pumpkin Seed Oil"`, which is non-comedogenic with
grade `"0"`, while `"mystery fruit"` matches no key and yields `none`. -/
theorem ingredient_lookup_examples :
    get_ingredient_info (str "Pumpkin Seeds") =
      dictGet COMEDOGENIC_DB (str "Pumpkin Seed Oil") ∧
    get_ingredient_info (str "Pumpkin Seeds") =
      some ⟨false, str "0", str "Non-comedogenic, excellent for acne-prone skin"⟩ ∧
    get_ingredient_info (str "mystery fruit") = none :=
  ⟨by decide, by decide, by decide⟩

/-- C7: partial matching is order dependent: the label `"avocado oil"`
partial-matches (and does not exact-match) both the `"avocado"` and the
`"oil"` entries, and the two permutations of the same two-entry database
each return their own first entry. -/
theorem match_food_order_dependence :
    match_food (str "avocado oil") [(⟨str "avocado", ()⟩ : DBEntry Unit), ⟨str "oil", ()⟩] =
      some ⟨str "avocado", ()⟩ ∧
    match_food (str "avocado oil") [(⟨str "oil", ()⟩ : DBEntry Unit), ⟨str "avocado", ()⟩] =
      some ⟨str "oil", ()⟩ ∧
    (⟨str "avocado", ()⟩ : DBEntry Unit) ≠ ⟨str "oil", ()⟩ ∧
    List.Perm [(⟨str "oil", ()⟩ : DBEntry Unit), ⟨str "avocado", ()⟩]
      [⟨str "avocado", ()⟩, ⟨str "oil", ()⟩] ∧
    (∀ e ∈ [(⟨str "avocado", ()⟩ : DBEntry Unit), ⟨str "oil", ()⟩],
      (pyIn (normalize_food_name e.food) (normalize_food_name (str "avocado oil"))
          || pyIn (normalize_food_name (str "avocado oil")) (normalize_food_name e.food))
        = true ∧
      normalize_food_name e.food ≠ normalize_food_name (str "avocado oil")) := by
  decide

/-- Witness for C7 at a concrete member: the `"avocado"` entry both
partial-matches and fails to exact-match the ambiguous label. -/
theorem match_food_order_dependence_witness :
    (pyIn (normalize_food_name (str "avocado")) (normalize_food_name (str "avocado oil"))
        || pyIn (normalize_food_name (str "avocado oil"))
            (normalize_food_name (str "avocado"))) = true ∧
    normalize_food_name (str "avocado") ≠ normalize_food_name (str "avocado oil") :=
  match_food_order_dependence.2.2.2.2 ⟨str "avocado", ()⟩ (by decide)

/-- C8: no matching operation mutates the tables or the database: the
state-passing translations return the synonym table, comedogenic table and
database unchanged, and a found orchestrator result carries a copy of an
entry of the (untouched) database. -/
theorem matching_no_mutation :
    (∀ (t : AppTables) (s : Str), (get_ingredient_info_st t s).2 = t) ∧
    (∀ (α : Type) (label : Str) (db : List (DBEntry α)),
      (match_food_st label db).2 = db) ∧
    (∀ (α β : Type) (preds : List (Str × β)) (db : List (DBEntry α)),
      (analyze_food_image_st preds db).2 = db) ∧
    (∀ (α β : Type) (preds : List (Str × β)) (db : List (DBEntry α))
        (r : MatchedResult α β),
      (analyze_food_image_st preds db).1.1 = some r → r.entry ∈ db) ∧
    (∀ (α : Type) (label : Str) (db : List (DBEntry α)) (e : DBEntry α),
      (match_food_st label db).1 = some e → e ∈ db) := by
  refine ⟨fun _ _ => rfl, fun _ _ _ => rfl, fun _ _ _ _ => rfl, ?_, ?_⟩
  · intro α β preds db r h
    obtain ⟨pre, p, post, _, _, hp, _, _⟩ := tryCandidates_eq_some h
    exact match_food_mem hp
  · intro α label db e h
    exact match_food_mem h

/-- Witness for C8: the concrete orchestrator run returns a copy of the
stored avocado entry, which is indeed a member of the database. -/
theorem matching_no_mutation_witness :
    (⟨str "avocado", ()⟩ : DBEntry Unit) ∈ [(⟨str "avocado", ()⟩ : DBEntry Unit)] :=
  matching_no_mutation.2.2.2.1 Unit ℚ [(str "avocado", (0.5 : ℚ))]
    [⟨str "avocado", ()⟩] ⟨⟨str "avocado", ()⟩, str "avocado", 0.5⟩ rfl

/-- C9: matching never throws for a missing match: with a database
supplied, `match_food` yields an ordinary `none` exactly when no entry
passes either test, while loading the external database raises
`FileNotFoundError` precisely when the file at the fixed path is missing
— a configuration failure distinct from the `none` no-match outcome. -/
theorem no_throw_on_no_match :
    (∀ (α : Type) (fs : Str → Option (List (DBEntry α))) (label : Str)
        (db : List (DBEntry α)),
      match_food_full fs label (some db) = Except.ok (match_food label db)) ∧
    (∀ (α : Type) (label : Str) (db : List (DBEntry α)),
      match_food label db = none ↔ ∀ e ∈ db,
        normalize_food_name e.food ≠ normalize_food_name label ∧
        ¬(normalize_food_name e.food <:+: normalize_food_name label) ∧
        ¬(normalize_food_name label <:+: normalize_food_name e.food)) ∧
    (∀ (α : Type) (fs : Str → Option (List (DBEntry α))),
      load_acne_food_database fs =
          Except.error (LoadError.fileNotFound acne_db_path) ↔
        fs acne_db_path = none) ∧
    (∀ (α : Type) (fs : Str → Option (List (DBEntry α))) (label : Str),
      match_food_full fs label none =
          Except.error (LoadError.fileNotFound acne_db_path) ↔
        fs acne_db_path = none) := by
  refine ⟨fun _ _ _ _ => rfl, fun _ label db => match_food_eq_none_iff label db, ?_, ?_⟩
  · intro α fs
    cases h : fs acne_db_path with
    | none => simp [load_acne_food_database, h]
    | some db => simp [load_acne_food_database, h]
  · intro α fs label
    cases h : fs acne_db_path with
    | none => simp [match_food_full, load_acne_food_database, h]
    | some db => simp [match_food_full, load_acne_food_database, h]

/-- Witness for C9: with an empty filesystem the loader raises file-not-found
at the fixed database path, and with the file present a supplied-database
match returns an ordinary result. -/
theorem no_throw_on_no_match_witness :
    load_acne_food_database (fun _ => (none : Option (List (DBEntry Unit)))) =
      Except.error (LoadError.fileNotFound acne_db_path) ∧
    match_food_full (fun _ => (none : Option (List (DBEntry Unit)))) (str "kiwi")
        (some []) = Except.ok none :=
  ⟨(no_throw_on_no_match.2.2.1 Unit (fun _ => none)).mpr rfl,
   no_throw_on_no_match.1 Unit (fun _ => none) (str "kiwi") []⟩

/-- Counterexample to C10 as stated: the label `""` normalizes to the
empty string and the database `[{food:"a"}, {food:""}]` is nonempty, yet
`match_food` returns the second entry (the exact pass already matches the
entry whose food also normalizes to empty), not the first entry. -/
theorem empty_label_counterexample :
    normalize_food_name (str "") = [] ∧
    ([(⟨str "a", ()⟩ : DBEntry Unit), ⟨str "", ()⟩] : List (DBEntry Unit)) ≠ [] ∧
    match_food (str "") [(⟨str "a", ()⟩ : DBEntry Unit), ⟨str "", ()⟩] =
      some ⟨str "", ()⟩ ∧
    [(⟨str "a", ()⟩ : DBEntry Unit), ⟨str "", ()⟩].head? = some ⟨str "a", ()⟩ ∧
    some (⟨str "", ()⟩ : DBEntry Unit) ≠ some ⟨str "a", ()⟩ := by
  decide

/-- C10 (amended): an input that normalizes to the empty string does not
yield `none`: `get_ingredient_info` falls through to the partial scan and
returns the first synonym entry's record (the Pumpkin Seed Oil record);
and `match_food` on an empty-normalizing label over a nonempty database
none of whose entry foods normalize to the empty string fails the exact
pass and returns the first entry via the contains pass. -/
theorem empty_label_first_entry :
    (∀ s : Str, pyStrip (pyLower s) = [] →
      get_ingredient_info s =
        some ⟨false, str "0", str "Non-comedogenic, excellent for acne-prone skin"⟩) ∧
    (∀ (α : Type) (label : Str) (db : List (DBEntry α)),
      normalize_food_name label = [] → db ≠ [] →
      (∀ e ∈ db, normalize_food_name e.food ≠ []) →
      exactPass (normalize_food_name label) db = none ∧
      match_food label db = db.head?) := by
  constructor
  · intro s h
    simp only [get_ingredient_info, get_ingredient_info_core, h]
    decide
  · intro α label db h hne hfoods
    have hex : exactPass (normalize_food_name label) db = none := by
      rw [exactPass_eq_find, List.find?_eq_none]
      intro e he
      rw [h]
      simpa using hfoods e he
    refine ⟨hex, ?_⟩
    cases db with
    | nil => exact absurd rfl hne
    | cons e rest =>
        have hin : ([] : Str) <:+: normalize_food_name e.food :=
          ⟨[], normalize_food_name e.food, by simp⟩
        have hc : (pyIn (normalize_food_name e.food) (normalize_food_name label)
            || pyIn (normalize_food_name label) (normalize_food_name e.food)) = true := by
          rw [h]
          simp [pyIn, hin]
        have hcont : containsPass (normalize_food_name label) (e :: rest) = some e := by
          simp only [containsPass]
          rw [if_pos (by simpa using hc)]
        simp [match_food, hex, hcont]

/-- Witness for C10 (amended) at concrete inputs: a whitespace-only text
input yields the Pumpkin Seed Oil record, and an underscore-only label over
a one-entry database returns that first entry. -/
theorem empty_label_first_entry_witness :
    get_ingredient_info (str "  ") =
      some ⟨false, str "0", str "Non-comedogenic, excellent for acne-prone skin"⟩ ∧
    (exactPass (normalize_food_name (str "__")) [(⟨str "apple", ()⟩ : DBEntry Unit)] =
        none ∧
      match_food (str "__") [(⟨str "apple", ()⟩ : DBEntry Unit)] =
        [(⟨str "apple", ()⟩ : DBEntry Unit)].head?) :=
  ⟨empty_label_first_entry.1 (str "  ") (by decide),
   empty_label_first_entry.2 Unit (str "__") [⟨str "apple", ()⟩] (by decide)
     (by decide) (by decide)⟩

end VanityOS
